import Mathlib

/-!
Verification development for the medication-agent retrieval core
(`src/ingest/ingest_all_json.py` and `src/api/server.py`).

Python strings are modelled as `List Char`; Python `None`-able values as
`Option`; SQL tables and the vector index as association lists with the
conflict behaviour of the source's `ON CONFLICT` clauses and point-id
upserts made explicit.
-/

abbrev Chars := List Char

/-- Python `str.strip()`: drop whitespace from both ends. -/
def strip (l : Chars) : Chars :=
  ((l.dropWhile Char.isWhitespace).reverse.dropWhile Char.isWhitespace).reverse

/-- Python `re.split` on a single-character class: split at every character
satisfying `p`, dropping the delimiter and keeping empty pieces, as
`re.split(r'[.!?]', text)` does in `split_text`. -/
def splitAny (p : Char → Bool) : Chars → List Chars
  | [] => [[]]
  | c :: rest =>
    if p c then [] :: splitAny p rest
    else
      match splitAny p rest with
      | [] => [[c]]
      | h :: t => (c :: h) :: t

/-- The sentence delimiter class `[.!?]` of `split_text`. -/
def isDelim (c : Char) : Bool := c == '.' || c == '!' || c == '?'

/-- The accumulation loop of `split_text` (`ingest_all_json.py` lines 79-91):
`current` is `current_part`; each sentence is appended together with a `"."`;
a closed chunk is `strip`ped before being emitted. -/
def buildParts (max_length : Nat) : List Chars → Chars → List Chars
  | [], current => if current = [] then [] else [strip current]
  | s :: rest, current =>
    if current.length + s.length ≤ max_length then
      buildParts max_length rest (current ++ s ++ ['.'])
    else if current = [] then
      buildParts max_length rest (s ++ ['.'])
    else
      strip current :: buildParts max_length rest (s ++ ['.'])

/-- Embedding of `split_text` (`ingest_all_json.py` lines 74-93). -/
def split_text (text : Chars) (max_length : Nat := 1000) : List Chars :=
  if text.length ≤ max_length then [text]
  else buildParts max_length (splitAny isDelim text) []

/-- Every sentence delimiter replaced by `'.'` (what the rebuilt text of
`split_text` actually contains, since `re.split` drops `.`/`!`/`?` and the
loop re-appends `"."`). -/
def replaceDelims (l : Chars) : Chars :=
  l.map (fun c => if isDelim c then '.' else c)

/-- The separator class `[,·\s]+` used inside `extract_ingredients`. -/
def isSep (c : Char) : Bool := c == ',' || c == '·' || c.isWhitespace

/-- Semantics of `re.findall(r'\(([^)]+)\)', item_name)`: scan left to right; at a `'('`,
the greedy `[^)]+` reaches exactly to the first following `')'` and must be
non-empty; matching resumes after that `')'`; a `'('` with no following `')'`
or with nothing before the next `')'` starts no match.  The scan position
advances at every step, so the remaining input length is a valid fuel. -/
def findGroupsAux : Nat → Chars → List Chars
  | 0, _ => []
  | _ + 1, [] => []
  | fuel + 1, c :: rest =>
    if c = '(' then
      match rest.dropWhile (fun d => !(d = ')')) with
      | ')' :: rest2 =>
        let gap := rest.takeWhile (fun d => !(d = ')'))
        if gap = [] then findGroupsAux fuel rest else gap :: findGroupsAux fuel rest2
      | _ => findGroupsAux fuel rest
    else findGroupsAux fuel rest

def findGroups (s : Chars) : List Chars := findGroupsAux s.length s

/-- One tokenisation step of `extract_ingredients`: `re.split(r'[,·\s]+', g)`
 followed by `strip` and the truthiness filter.  Splitting on a *run* of
separators and then discarding empty pieces is observably identical to
splitting at every separator character and discarding empty pieces, so the
run is modelled through `splitAny` plus the source's own empty filter. -/
def tokensOf (g : Chars) : List Chars :=
  ((splitAny isSep g).map strip).filter (fun t => !t.isEmpty)

/-- Embedding of `extract_ingredients` (`ingest_all_json.py` lines 63-72). -/
def extract_ingredients (item_name : Chars) : List Chars :=
  (findGroups item_name).flatMap tokensOf

/-- Maximal runs of non-separator characters: the direct reading of the
spec's "split on comma/middle-dot/whitespace runs ... discard empty tokens". -/
def runs (p : Char → Bool) : Chars → List Chars
  | [] => []
  | c :: rest =>
    if p c then runs p rest
    else (c :: rest.takeWhile (fun d => !p d)) :: runs p (rest.dropWhile (fun d => !p d))
termination_by l => l.length
decreasing_by
  · simp
  · have h1 : (rest.dropWhile (fun d => !p d)).length ≤ rest.length :=
      (List.dropWhile_sublist _).length_le
    simp
    omega

/-- Modelled from the spec (§4.1 contract wording): within each parenthesized
group, split on separator runs, trim each token and discard empty ones. -/
def tokensSpec (g : Chars) : List Chars :=
  ((runs isSep g).map strip).filter (fun t => !t.isEmpty)

/-- The §4.1 contract as a function, for refinement against
`extract_ingredients`. -/
def extractIngredientsSpec (item_name : Chars) : List Chars :=
  (findGroups item_name).flatMap tokensSpec

/-! ## Store primitives

The PostgreSQL tables all carry a unique constraint on their conflict
columns, and Qdrant points are keyed by point id, so every table is an
association list from its natural key. -/

/-- Semantics of `INSERT ... ON CONFLICT (key) DO UPDATE`: overwrite the row at the key
if present, else append a new row. -/
def upsertA {κ ν : Type} [DecidableEq κ] (t : List (κ × ν)) (k : κ) (v : ν) :
    List (κ × ν) :=
  if t.any (fun p => p.1 = k) then
    t.map (fun p => if p.1 = k then (k, v) else p)
  else t ++ [(k, v)]

/-- Semantics of `INSERT ... ON CONFLICT ... DO NOTHING` on a table whose row is its own
conflict key. -/
def insertIgnore {α : Type} [DecidableEq α] (t : List α) (x : α) : List α :=
  if x ∈ t then t else t ++ [x]

/-- A loop of `insertIgnore`s, as in `insert_product_ingredients`. -/
def foldInsert {α : Type} [DecidableEq α] (t : List α) (xs : List α) : List α :=
  xs.foldl insertIgnore t

/-- A loop of keyed upserts, as in `upsert_product_sections` and
`upsert_qdrant_points`. -/
def upsertList {κ ν : Type} [DecidableEq κ] (t : List (κ × ν))
    (kvs : List (κ × ν)) : List (κ × ν) :=
  kvs.foldl (fun acc kv => upsertA acc kv.1 kv.2) t

/-- Decimal rendering of a natural number, as Python string interpolation
does for `part_idx` in the point id `f"{item_seq}_{section}_{part_idx}"`.
Recursion on `n / 10` is encoded with a fuel bound; `n + 1` steps always
suffice since `n < 10 ^ (n + 1)`. -/
def natCharsAux : Nat → Nat → Chars
  | 0, _ => []
  | fuel + 1, n =>
    if n < 10 then [Char.ofNat (48 + n)]
    else natCharsAux fuel (n / 10) ++ [Char.ofNat (48 + n % 10)]

def natChars (n : Nat) : Chars := natCharsAux (n + 1) n

/-- The numeric value of a decimal digit string; used to show `natChars` is
injective (so distinct part indices yield distinct point ids). -/
def digitsVal (l : Chars) : Nat := l.foldl (fun a c => a * 10 + (c.toNat - 48)) 0

/-! ## Ingest pipeline model (`ingest_all_json.py`) -/

/-- One source record (one element of an alias's item list in the input
JSON); every field is optional exactly as `dict.get` is. -/
structure Record where
  itemSeq : Option Chars
  itemName : Option Chars
  entpName : Option Chars
  itemImage : Option Chars
  bizrno : Option Chars
  openDe : Option Chars
  updateDe : Option Chars
  efcyQesitm : Option Chars
  useMethodQesitm : Option Chars
  atpnWarnQesitm : Option Chars
  atpnQesitm : Option Chars
  intrcQesitm : Option Chars
  seQesitm : Option Chars
  depositMethodQesitm : Option Chars
deriving DecidableEq

/-- A record with every field absent, for building concrete inputs. -/
def Record.empty : Record :=
  ⟨none, none, none, none, none, none, none, none, none, none, none, none,
    none, none⟩

/-- Python truthiness of an optional string (`if text:`): present and
non-empty. -/
def truthy (o : Option Chars) : Bool :=
  match o with
  | none => false
  | some l => !l.isEmpty

/-- The row written by `upsert_product` (lines 95-118); date fields are
truncated to their first 10 characters, and the raw record is stored
verbatim as `raw_json`. -/
structure ProductRow where
  entp_name : Option Chars
  item_name : Option Chars
  item_image : Option Chars
  bizrno : Option Chars
  open_de : Option Chars
  update_de : Option Chars
  raw_json : Record
deriving DecidableEq

def productRow (r : Record) : ProductRow :=
  { entp_name := r.entpName
    item_name := r.itemName
    item_image := r.itemImage
    bizrno := r.bizrno
    open_de := r.openDe.map (fun d => d.take 10)
    update_de := r.updateDe.map (fun d => d.take 10)
    raw_json := r }

/-- The Qdrant payload written by `upsert_qdrant_points` (lines 182-192).
The Python dict key `"section"` is a Lean keyword, hence `sectionName`. -/
structure QPayload where
  item_seq : Chars
  sectionName : Chars
  part_idx : Nat
  entp_name : Option Chars
  item_name : Option Chars
  aliases : List Chars
  ingredients : List Chars
  is_otc : Bool
  update_de : Chars
deriving DecidableEq

/-- The mapping `SECTION_MAPPING` (lines 27-35) applied to a record, in the source's
insertion order: canonical section name paired with the raw field value. -/
def sectionTexts (r : Record) : List (Chars × Option Chars) :=
  [("efficacy".toList, r.efcyQesitm),
   ("dosage".toList, r.useMethodQesitm),
   ("warnings".toList, r.atpnWarnQesitm),
   ("precautions".toList, r.atpnQesitm),
   ("interactions".toList, r.intrcQesitm),
   ("side_effects".toList, r.seQesitm),
   ("storage".toList, r.depositMethodQesitm)]

/-- All `(section, part_idx, chunk text)` triples produced for one record:
for each mapped field that is present and non-empty (`if text:`), the chunks
of `split_text(text)` with their indices. -/
def partTriples (r : Record) : List (Chars × Nat × Chars) :=
  (sectionTexts r).flatMap (fun st =>
    if truthy st.2 then
      (split_text (st.2.getD [])).enum.map (fun it => (st.1, it.1, it.2))
    else [])

/-- The point id `f"{item_seq}_{section}_{part_idx}"` (line 195). -/
def pointId (item_seq sec : Chars) (part_idx : Nat) : Chars :=
  item_seq ++ '_' :: (sec ++ '_' :: natChars part_idx)

/-- The key/value list of `upsert_product_sections` calls made for one
record across the section loop of `main` (lines 139-148, 266-273). -/
def sectionKVs (item_seq : Chars) (r : Record) :
    List ((Chars × Chars × Nat) × Chars) :=
  (partTriples r).map (fun p => ((item_seq, p.1, p.2.1), p.2.2))

/-- The point upserts of `upsert_qdrant_points` made for one record across
the section loop of `main` (lines 171-207, 276-280): key is the point id,
value the embedding vector plus payload.  `embed` abstracts
`get_embedding`. -/
def pointKVs (embed : Chars → List Int) (aliasName item_seq : Chars) (r : Record) :
    List (Chars × (List Int × QPayload)) :=
  (partTriples r).map (fun p =>
    (pointId item_seq p.1 p.2.1,
     (embed p.2.2,
      { item_seq := item_seq
        sectionName := p.1
        part_idx := p.2.1
        entp_name := r.entpName
        item_name := r.itemName
        aliases := [aliasName]
        ingredients := extract_ingredients (r.itemName.getD [])
        is_otc := true
        update_de := "2024-12-31".toList })))

/-- The two stores: the four PostgreSQL tables and the Qdrant collection. -/
structure Stores where
  products : List (Chars × ProductRow)
  product_aliases : List (Chars × Chars)
  product_ingredients : List (Chars × Chars)
  product_sections : List ((Chars × Chars × Nat) × Chars)
  points : List (Chars × (List Int × QPayload))
deriving DecidableEq

def Stores.empty : Stores := ⟨[], [], [], [], []⟩

/-- The per-item body of `main`'s loop (lines 248-280): skip a record whose
`itemSeq` is falsy; otherwise upsert the product row, the `(alias, item)`
pair, each extracted ingredient, and each section chunk into both stores.
Each of the five stores is touched by exactly one kind of statement, so the
sequential Python updates are written per store. -/
def processItem (embed : Chars → List Int) (σ : Stores) (aliasName : Chars)
    (r : Record) : Stores :=
  match r.itemSeq with
  | none => σ
  | some s =>
    if s.isEmpty then σ
    else
      { products := upsertA σ.products s (productRow r)
        product_aliases := insertIgnore σ.product_aliases (aliasName, s)
        product_ingredients := foldInsert σ.product_ingredients
          ((extract_ingredients (r.itemName.getD [])).map (fun i => (s, i)))
        product_sections := upsertList σ.product_sections (sectionKVs s r)
        points := upsertList σ.points (pointKVs embed aliasName s r) }

/-- Key uniqueness of every store: at most one product row per item, one
alias row per `(alias, item)` pair, one ingredient row per
`(item, ingredient)` pair, one chunk row per `(item, section, part_idx)`,
and one point per point id. -/
def NoDupKeys (σ : Stores) : Prop :=
  (σ.products.map Prod.fst).Nodup ∧ σ.product_aliases.Nodup ∧
    σ.product_ingredients.Nodup ∧ (σ.product_sections.map Prod.fst).Nodup ∧
    (σ.points.map Prod.fst).Nodup

instance (σ : Stores) : Decidable (NoDupKeys σ) := by
  unfold NoDupKeys; infer_instance

/-- A fixed embedding stub for concrete evaluations of the ingest model
(the claims under evaluation do not depend on vector values). -/
def demoEmbed : Chars → List Int := fun _ => []

/-- A concrete source record: item "1", a display name with one
parenthesized ingredient group, and one efficacy text. -/
def demoRecord : Record :=
  { Record.empty with
    itemSeq := some "1".toList
    itemName := some "Tylenol(acetaminophen)".toList
    efcyQesitm := some "heal pain".toList }

/-! ## Search API model (`api/server.py`) -/

/-- The `MatchValue` / `MatchAny` match kinds of the Qdrant client. -/
inductive QMatch : Type
  | value (v : Chars)
  | anyOf (vs : List Chars)
deriving DecidableEq

/-- A `FieldCondition(key=..., match=...)` of the Qdrant client. -/
structure FieldCondition where
  key : Chars
  «match» : QMatch
deriving DecidableEq

/-- A `Filter(must=conditions)` of the Qdrant client. -/
structure QFilter where
  must : List FieldCondition
deriving DecidableEq

/-- The `must` conditions of an optional filter (`None` filters nothing). -/
def mustConds (f : Option QFilter) : List FieldCondition :=
  match f with
  | none => []
  | some f => f.must

/-- Embedding of `build_filter` (`server.py` lines 79-103): Python `if section:` is
truthiness, so a condition is added only for a present *and non-empty*
value; an empty condition list yields `None`. -/
def build_filter (sectionArg aliasArg ingredientArg : Option Chars) :
    Option QFilter :=
  let conditions :=
    (if truthy sectionArg then
      [⟨"section".toList, QMatch.value (sectionArg.getD [])⟩] else []) ++
    (if truthy aliasArg then
      [⟨"aliases".toList, QMatch.anyOf [aliasArg.getD []]⟩] else []) ++
    (if truthy ingredientArg then
      [⟨"ingredients".toList, QMatch.anyOf [ingredientArg.getD []]⟩] else [])
  if conditions.isEmpty then none else some ⟨conditions⟩

/-- Whether one payload satisfies one condition, per Qdrant semantics:
`MatchValue` is equality on the named field, `MatchAny` is membership of
any listed value in the stored set. -/
def condHolds (c : FieldCondition) (p : QPayload) : Bool :=
  match c.«match» with
  | QMatch.value v =>
    (c.key = "section".toList && p.sectionName = v) ||
    (c.key = "item_seq".toList && p.item_seq = v)
  | QMatch.anyOf vs =>
    (c.key = "aliases".toList && vs.any (fun v => p.aliases.contains v)) ||
    (c.key = "ingredients".toList && vs.any (fun v => p.ingredients.contains v))

/-- A scored point of the index, as the vector search ranks them.  Scores
are abstracted to `Int` (the source's floats carry no logic here). -/
structure ScoredPoint where
  score : Int
  payload : QPayload
deriving DecidableEq

/-- The collaborator `vector_search(collection, query_vector, filter,
limit)`: the index's ranked candidate list, filtered, cut at `limit`. -/
def qdrantSearch (ranked : List ScoredPoint) (f : Option QFilter)
    (limit : Nat) : List ScoredPoint :=
  (ranked.filter (fun sp => (mustConds f).all (fun c => condHolds c sp.payload))).take limit

/-- The validated `SearchRequest` model of `server.py` lines 47-52. -/
structure SearchRequest where
  query : Chars
  sectionArg : Option Chars
  aliasArg : Option Chars
  ingredientArg : Option Chars
  k : Int
deriving DecidableEq

/-- A raw request body before pydantic validation: each field either absent
or present with a value of the declared type. -/
structure RawSearchRequest where
  query : Option Chars
  sectionArg : Option Chars
  aliasArg : Option Chars
  ingredientArg : Option Chars
  k : Option Int
deriving DecidableEq

/-- Pydantic validation of `SearchRequest`: `query` is required; the three
filters default to `None`; `k` is a plain `int` defaulting to 8, with no
bound or sign constraint declared. -/
def validateSearchRequest (raw : RawSearchRequest) :
    Except Chars SearchRequest :=
  match raw.query with
  | none => Except.error "query: field required".toList
  | some q =>
    Except.ok ⟨q, raw.sectionArg, raw.aliasArg, raw.ingredientArg, raw.k.getD 8⟩

/-- One returned hit (`SearchResult`, lines 54-64), built from a payload
with the `payload.get(key, default)` defaults of lines 157-168. -/
structure SearchResult where
  score : Int
  item_seq : Chars
  sectionName : Chars
  part_idx : Nat
  item_name : Chars
  entp_name : Chars
  aliases : List Chars
  ingredients : List Chars
  is_otc : Bool
  update_de : Chars
deriving DecidableEq

def toSearchResult (sp : ScoredPoint) : SearchResult :=
  { score := sp.score
    item_seq := sp.payload.item_seq
    sectionName := sp.payload.sectionName
    part_idx := sp.payload.part_idx
    item_name := sp.payload.item_name.getD []
    entp_name := sp.payload.entp_name.getD []
    aliases := sp.payload.aliases
    ingredients := sp.payload.ingredients
    is_otc := sp.payload.is_otc
    update_de := sp.payload.update_de }

/-- The `SearchResponse` model (lines 66-68). -/
structure SearchResponse where
  results : List SearchResult
  total : Nat
deriving DecidableEq

/-- Embedding of `search_medications` (lines 115-174): build the filter from the request,
run the limited vector search over the index's ranked candidates, map hits
to results, and report `total=len(results)`.  `ranked` abstracts the
index's similarity ranking for the embedded query; the non-negative
`limit` the collaborator receives is `k` clamped at 0. -/
def search_medications (ranked : List ScoredPoint) (req : SearchRequest) :
    SearchResponse :=
  let f := build_filter req.sectionArg req.aliasArg req.ingredientArg
  let hits := qdrantSearch ranked f req.k.toNat
  let results := hits.map toSearchResult
  { results := results, total := results.length }

/-- The alias-accumulation loop of `get_aliases` (`server.py` lines 198-221)
over the collection's payload list: fetch the page at `offset`, stop on an
empty page, add the page's alias sets, stop after a short page, else
advance by `limit`.  The collaborator `scroll` is modelled as
`corpus[offset : offset+limit]`. -/
def collectAliases (corpus : List QPayload) (limit offset : Nat)
    (acc : Finset Chars) : Finset Chars :=
  if h1 : ((corpus.drop offset).take limit).isEmpty then acc
  else if h2 : ((corpus.drop offset).take limit).length < limit then
    ((corpus.drop offset).take limit).foldl (fun a p => a ∪ p.aliases.toFinset) acc
  else
    collectAliases corpus limit (offset + limit)
      (((corpus.drop offset).take limit).foldl (fun a p => a ∪ p.aliases.toFinset) acc)
termination_by corpus.length - offset
decreasing_by
  have hlen : ((corpus.drop offset).take limit).length =
      min limit (corpus.length - offset) := by
    simp [List.length_take, List.length_drop]
  have hne : (corpus.drop offset).take limit ≠ [] := by
    intro hnil
    exact h1 (by simp [hnil])
  have hpos : 0 < ((corpus.drop offset).take limit).length :=
    List.length_pos.mpr hne
  omega

/-- Embedding of `get_aliases` (`server.py` lines 191-223): page size 100 from offset 0,
then `sorted(list(aliases))` — `Finset.sort` under the lexicographic order
on strings. -/
def get_aliases (corpus : List QPayload) : List Chars :=
  (collectAliases corpus 100 0 ∅).sort (· ≤ ·)

/-! ## Lemmas: stripping -/

theorem strip_sublist (l : Chars) : (strip l).Sublist l := by
  have h1 : (l.dropWhile Char.isWhitespace).Sublist l := List.dropWhile_sublist _
  have h2 : ((l.dropWhile Char.isWhitespace).reverse.dropWhile Char.isWhitespace).Sublist
      (l.dropWhile Char.isWhitespace).reverse := List.dropWhile_sublist _
  have h3 := h2.reverse
  rw [List.reverse_reverse] at h3
  exact h3.trans h1

theorem strip_length_le (l : Chars) : (strip l).length ≤ l.length :=
  (strip_sublist l).length_le

theorem strip_count_le (l : Chars) (c : Char) :
    (strip l).count c ≤ l.count c :=
  (strip_sublist l).count_le c

theorem dropWhile_eq_self_of_all {p : Char → Bool} {l : Chars}
    (h : ∀ c ∈ l, p c = false) : l.dropWhile p = l := by
  cases l with
  | nil => rfl
  | cons c rest => simp [List.dropWhile_cons, h c (List.mem_cons_self c rest)]

theorem strip_of_no_ws {l : Chars} (h : ∀ c ∈ l, c.isWhitespace = false) :
    strip l = l := by
  unfold strip
  rw [dropWhile_eq_self_of_all h]
  rw [dropWhile_eq_self_of_all (fun c hc => h c (List.mem_reverse.mp hc))]
  exact List.reverse_reverse l

/-! ## Lemmas: splitting -/

theorem splitAny_ne_nil (p : Char → Bool) (l : Chars) : splitAny p l ≠ [] := by
  induction l with
  | nil => simp [splitAny]
  | cons c rest ih =>
    by_cases hp : p c
    · simp [splitAny, hp]
    · cases h : splitAny p rest with
      | nil => exact absurd h ih
      | cons a t => simp [splitAny, hp, h]

theorem splitAny_cons_pos {p : Char → Bool} {c : Char} (rest : Chars)
    (hp : p c = true) : splitAny p (c :: rest) = [] :: splitAny p rest := by
  simp [splitAny, hp]

theorem splitAny_cons_neg {p : Char → Bool} {c : Char} {rest : Chars}
    {h0 : Chars} {t : List Chars} (hp : p c = false)
    (h : splitAny p rest = h0 :: t) :
    splitAny p (c :: rest) = (c :: h0) :: t := by
  simp [splitAny, hp, h]

theorem runs_cons_pos {p : Char → Bool} {c : Char} (rest : Chars)
    (hp : p c = true) : runs p (c :: rest) = runs p rest := by
  simp [runs, hp]

theorem runs_cons_neg {p : Char → Bool} {c : Char} (rest : Chars)
    (hp : p c = false) :
    runs p (c :: rest) =
      (c :: rest.takeWhile (fun d => !p d)) :: runs p (rest.dropWhile (fun d => !p d)) := by
  simp [runs, hp]

theorem runs_mem_ne_nil (p : Char → Bool) (g : Chars) :
    ∀ piece ∈ runs p g, piece ≠ [] := by
  induction g using runs.induct p with
  | case1 => simp [runs]
  | case2 c rest hp ih => simpa [runs_cons_pos rest hp] using ih
  | case3 c rest hp ih =>
    rw [runs_cons_neg rest (by simpa using hp)]
    intro piece hm
    rcases List.mem_cons.mp hm with h | h
    · simp [h]
    · exact ih piece h

theorem runs_mem_all_not (p : Char → Bool) (g : Chars) :
    ∀ piece ∈ runs p g, ∀ c ∈ piece, p c = false := by
  induction g using runs.induct p with
  | case1 => simp [runs]
  | case2 c rest hp ih => simpa [runs_cons_pos rest hp] using ih
  | case3 c rest hp ih =>
    rw [runs_cons_neg rest (by simpa using hp)]
    intro piece hm
    rcases List.mem_cons.mp hm with h | h
    · subst h
      intro d hd
      rcases List.mem_cons.mp hd with h' | h'
      · subst h'; simpa using hp
      · simpa using List.mem_takeWhile_imp h'
    · exact ih piece h

theorem splitAny_mem_all_not (p : Char → Bool) (g : Chars) :
    ∀ piece ∈ splitAny p g, ∀ c ∈ piece, p c = false := by
  induction g with
  | nil => simp [splitAny]
  | cons c rest ih =>
    by_cases hp : p c
    · rw [splitAny_cons_pos rest (by simpa using hp)]
      intro piece hm
      rcases List.mem_cons.mp hm with h | h
      · simp [h]
      · exact ih piece h
    · cases h : splitAny p rest with
      | nil => exact absurd h (splitAny_ne_nil p rest)
      | cons a t =>
        rw [splitAny_cons_neg (by simpa using hp) h]
        intro piece hm
        rcases List.mem_cons.mp hm with h' | h'
        · subst h'
          intro d hd
          rcases List.mem_cons.mp hd with h'' | h''
          · subst h''; simpa using hp
          · exact ih a (h ▸ List.mem_cons_self a t) d h''
        · exact ih piece (h ▸ List.mem_cons_of_mem a h')

theorem splitAny_spec (p : Char → Bool) (g : Chars) :
    (splitAny p g).filter (fun x => !x.isEmpty) = runs p g ∧
      ∃ t, splitAny p g = g.takeWhile (fun c => !p c) :: t ∧
        t.filter (fun x => !x.isEmpty) = runs p (g.dropWhile (fun c => !p c)) := by
  induction g with
  | nil => exact ⟨by simp [splitAny, runs], [], by simp [splitAny], by simp [runs]⟩
  | cons c rest ih =>
    obtain ⟨ih1, t, iht, iht2⟩ := ih
    by_cases hp' : p c
    · have hp : p c = true := hp'
      refine ⟨?_, splitAny p rest, ?_, ?_⟩
      · rw [splitAny_cons_pos rest hp, List.filter_cons_of_neg (by simp), ih1,
          runs_cons_pos rest hp]
      · rw [splitAny_cons_pos rest hp, List.takeWhile_cons]
        simp [hp]
      · have hdrop : (c :: rest).dropWhile (fun d => !p d) = c :: rest := by
          simp [List.dropWhile_cons, hp]
        rw [hdrop, ih1, runs_cons_pos rest hp]
    · have hp : p c = false := by simpa using hp'
      have hstep := splitAny_cons_neg hp iht
      have htake : (c :: rest).takeWhile (fun d => !p d) =
          c :: rest.takeWhile (fun d => !p d) := by
        simp [List.takeWhile_cons, hp]
      have hdrop : (c :: rest).dropWhile (fun d => !p d) =
          rest.dropWhile (fun d => !p d) := by
        simp [List.dropWhile_cons, hp]
      refine ⟨?_, t, ?_, ?_⟩
      · rw [hstep, List.filter_cons_of_pos (by simp), iht2, runs_cons_neg rest hp]
      · rw [hstep, htake]
      · rw [hdrop]; exact iht2

theorem splitAny_filter_eq_runs (p : Char → Bool) (g : Chars) :
    (splitAny p g).filter (fun x => !x.isEmpty) = runs p g :=
  (splitAny_spec p g).1

theorem not_ws_of_not_sep {c : Char} (h : isSep c = false) :
    c.isWhitespace = false := by
  by_contra hws
  have hws' : c.isWhitespace = true := by
    cases hw : c.isWhitespace
    · exact absurd hw hws
    · rfl
  simp [isSep, hws'] at h

theorem tokensOf_eq_runs (g : Chars) : tokensOf g = runs isSep g := by
  unfold tokensOf
  have hmap : (splitAny isSep g).map strip = splitAny isSep g := by
    rw [List.map_congr_left (g := id), List.map_id]
    intro piece hmem
    exact strip_of_no_ws
      (fun c hc => not_ws_of_not_sep (splitAny_mem_all_not isSep g piece hmem c hc))
  rw [hmap, splitAny_filter_eq_runs]

theorem tokensSpec_eq_runs (g : Chars) : tokensSpec g = runs isSep g := by
  unfold tokensSpec
  have hmap : (runs isSep g).map strip = runs isSep g := by
    rw [List.map_congr_left (g := id), List.map_id]
    intro piece hmem
    exact strip_of_no_ws
      (fun c hc => not_ws_of_not_sep (runs_mem_all_not isSep g piece hmem c hc))
  rw [hmap]
  rw [List.filter_eq_self.mpr]
  intro piece hmem
  simpa using runs_mem_ne_nil isSep g piece hmem

theorem findGroupsAux_no_paren :
    ∀ (fuel : Nat) (l : Chars), '(' ∉ l → findGroupsAux fuel l = [] := by
  intro fuel
  induction fuel with
  | zero => intro l _; rfl
  | succ n ih =>
    intro l hl
    cases l with
    | nil => rfl
    | cons c rest =>
      have hc : ¬c = '(' := fun h => hl (h ▸ List.mem_cons_self c rest)
      have hrest : '(' ∉ rest := fun h => hl (List.mem_cons_of_mem c h)
      simp only [findGroupsAux, hc, if_false]
      exact ih rest hrest

/-- C8: `extract_ingredients` finds all parenthesized groups, splits each on
separator runs, trims, drops empty tokens, keeps order with cross-group
duplicates, returns `[]` when there is no parenthesized group, and — being a
total function — never raises. -/
theorem c8_extract_ingredients (s : Chars) :
    extract_ingredients s = extractIngredientsSpec s ∧
      ('(' ∉ s → extract_ingredients s = []) := by
  constructor
  · unfold extract_ingredients extractIngredientsSpec
    have htok : tokensOf = tokensSpec :=
      funext (fun g => (tokensOf_eq_runs g).trans (tokensSpec_eq_runs g).symm)
    rw [htok]
  · intro h
    unfold extract_ingredients findGroups
    rw [findGroupsAux_no_paren _ _ h]
    rfl

/-- Witness for C8 at concrete inputs. -/
theorem c8_extract_ingredients_witness :
    extract_ingredients "Tylenol(acetaminophen, caffeine)".toList =
      extractIngredientsSpec "Tylenol(acetaminophen, caffeine)".toList ∧
      extract_ingredients "abc".toList = [] :=
  ⟨(c8_extract_ingredients _).1,
    (c8_extract_ingredients "abc".toList).2 (by decide)⟩

/-! ## Lemmas: chunk reconstruction (C2) -/

theorem flatten_splitAny_dot (text : Chars) :
    ((splitAny isDelim text).map (fun s => s ++ ['.'])).flatten =
      replaceDelims text ++ ['.'] := by
  induction text with
  | nil => simp [splitAny, replaceDelims]
  | cons c rest ih =>
    by_cases hd : isDelim c
    · rw [splitAny_cons_pos rest hd]
      simp only [List.map_cons, List.flatten_cons, List.nil_append, ih]
      simp [replaceDelims, hd]
    · obtain ⟨h0, t, hsp⟩ : ∃ h0 t, splitAny isDelim rest = h0 :: t := by
        cases hx : splitAny isDelim rest with
        | nil => exact absurd hx (splitAny_ne_nil _ _)
        | cons a t => exact ⟨a, t, rfl⟩
      rw [splitAny_cons_neg (by simpa using hd) hsp]
      rw [hsp] at ih
      simp only [List.map_cons, List.flatten_cons] at ih ⊢
      have hrep : replaceDelims (c :: rest) = c :: replaceDelims rest := by
        simp [replaceDelims, hd]
      rw [hrep]
      calc ((c :: h0) ++ ['.']) ++ (t.map (fun s => s ++ ['.'])).flatten
          = c :: ((h0 ++ ['.']) ++ (t.map (fun s => s ++ ['.'])).flatten) := by simp
        _ = c :: (replaceDelims rest ++ ['.']) := by rw [ih]
        _ = (c :: replaceDelims rest) ++ ['.'] := by simp

theorem buildParts_pieces (max_length : Nat) (segs : List Chars) :
    ∀ current : Chars, current ≠ [] →
      ∃ pieces : List Chars, pieces.map strip = buildParts max_length segs current ∧
        pieces.flatten = current ++ (segs.map (fun s => s ++ ['.'])).flatten := by
  induction segs with
  | nil => exact fun current hc => ⟨[current], by simp [buildParts, hc], by simp⟩
  | cons s rest ih =>
    intro current hc
    by_cases hlen : current.length + s.length ≤ max_length
    · obtain ⟨pieces, h1, h2⟩ := ih (current ++ s ++ ['.']) (by simp)
      refine ⟨pieces, ?_, ?_⟩
      · rw [h1]; simp [buildParts, hlen]
      · rw [h2]; simp
    · obtain ⟨pieces, h1, h2⟩ := ih (s ++ ['.']) (by simp)
      refine ⟨current :: pieces, ?_, ?_⟩
      · rw [List.map_cons, h1]; simp [buildParts, hlen, hc]
      · simp [h2]

theorem buildParts_pieces_start (max_length : Nat) (segs : List Chars) :
    ∃ pieces : List Chars, pieces.map strip = buildParts max_length segs [] ∧
      pieces.flatten = (segs.map (fun s => s ++ ['.'])).flatten := by
  cases segs with
  | nil => exact ⟨[], by simp [buildParts], by simp⟩
  | cons s rest =>
    have hred : buildParts max_length (s :: rest) [] =
        buildParts max_length rest (s ++ ['.']) := by
      by_cases hlen : ([] : Chars).length + s.length ≤ max_length <;>
        simp [buildParts, hlen]
    obtain ⟨pieces, h1, h2⟩ := buildParts_pieces max_length rest (s ++ ['.']) (by simp)
    refine ⟨pieces, by rw [h1, hred], by rw [h2]; simp⟩

/-- C2 (amended): for input longer than the maximum, concatenating the
chunks reconstructs the original text with every sentence delimiter
(`.`, `!`, `?`) replaced by `'.'` and one extra `'.'` appended, up to
whitespace trimmed at chunk boundaries: the chunks are the `strip`s of
pieces whose concatenation is that transformed text. -/
theorem c2_roundtrip_amended (text : Chars) (max_length : Nat)
    (h : max_length < text.length) :
    ∃ pieces : List Chars, pieces.map strip = split_text text max_length ∧
      pieces.flatten = replaceDelims text ++ ['.'] := by
  have hsp : split_text text max_length =
      buildParts max_length (splitAny isDelim text) [] := by
    simp [split_text, Nat.not_le.mpr h]
  obtain ⟨pieces, h1, h2⟩ := buildParts_pieces_start max_length (splitAny isDelim text)
  exact ⟨pieces, by rw [h1, hsp], by rw [h2, flatten_splitAny_dot]⟩

/-- Witness for the amended C2 at a concrete input. -/
theorem c2_roundtrip_amended_witness :
    2 < "ab!cd".toList.length ∧
      ∃ pieces : List Chars, pieces.map strip = split_text "ab!cd".toList 2 ∧
        pieces.flatten = replaceDelims "ab!cd".toList ++ ['.'] :=
  ⟨by decide, c2_roundtrip_amended _ _ (by decide)⟩

/-- C2 as stated is false: on `"ab!cd"` with maximum 2 the chunks are
`["ab.", "cd."]`, and no concatenation that the chunks trim to can equal the
original text — the `'!'` was replaced and a `'.'` added. -/
theorem c2_roundtrip_cex :
    ¬ ∃ pieces : List Chars, pieces.map strip = split_text "ab!cd".toList 2 ∧
      pieces.flatten = "ab!cd".toList := by
  rintro ⟨pieces, hmap, hflat⟩
  have hst : split_text "ab!cd".toList 2 = ["ab.".toList, "cd.".toList] := by decide
  rw [hst] at hmap
  cases pieces with
  | nil => simp at hmap
  | cons p1 rest =>
    cases rest with
    | nil => simp at hmap
    | cons p2 rest2 =>
      cases rest2 with
      | cons p3 r3 => simp at hmap
      | nil =>
        simp only [List.map_cons, List.map_nil] at hmap
        injection hmap with h1 hrest
        injection hrest with h2 _
        have hc1 : (strip p1).count '.' = 1 := by rw [h1]; decide
        have hle : 1 ≤ p1.count '.' := hc1 ▸ strip_count_le p1 '.'
        have hflat' : p1 ++ p2 = "ab!cd".toList := by simpa using hflat
        have hcount := congrArg (List.count '.') hflat'
        rw [List.count_append] at hcount
        have hz : ("ab!cd".toList).count '.' = 0 := by decide
        rw [hz] at hcount
        omega

/-! ## Lemmas: chunk length bound (C3) -/

theorem buildParts_length_bound (max_length : Nat) (segs : List Chars) :
    ∀ current : Chars, ∀ chunk ∈ buildParts max_length segs current,
      chunk.length ≤ max_length + 1 ∨ chunk.length ≤ current.length ∨
        ∃ seg ∈ segs, max_length < seg.length ∧ chunk.length ≤ seg.length + 1 := by
  induction segs with
  | nil =>
    intro current chunk hm
    unfold buildParts at hm
    by_cases hc : current = []
    · simp [hc] at hm
    · simp only [hc, if_false, List.mem_singleton] at hm
      exact Or.inr (Or.inl (hm ▸ strip_length_le current))
  | cons s rest ih =>
    intro current chunk hm
    by_cases hlen : current.length + s.length ≤ max_length
    · rw [show buildParts max_length (s :: rest) current =
          buildParts max_length rest (current ++ s ++ ['.']) by
        simp [buildParts, hlen]] at hm
      rcases ih (current ++ s ++ ['.']) chunk hm with h | h | ⟨seg, hseg, h1, h2⟩
      · exact Or.inl h
      · have : (current ++ s ++ ['.']).length ≤ max_length + 1 := by
          simp only [List.length_append, List.length_singleton]
          omega
        exact Or.inl (le_trans h this)
      · exact Or.inr (Or.inr ⟨seg, List.mem_cons_of_mem s hseg, h1, h2⟩)
    · have hrec : ∀ chunk ∈ buildParts max_length rest (s ++ ['.']),
          chunk.length ≤ max_length + 1 ∨
            ∃ seg ∈ s :: rest, max_length < seg.length ∧ chunk.length ≤ seg.length + 1 := by
        intro ch hch
        rcases ih (s ++ ['.']) ch hch with h | h | ⟨seg, hseg, h1, h2⟩
        · exact Or.inl h
        · by_cases hs : s.length ≤ max_length
          · refine Or.inl (le_trans h ?_)
            simp only [List.length_append, List.length_singleton]
            omega
          · refine Or.inr ⟨s, List.mem_cons_self s rest, Nat.lt_of_not_le hs, ?_⟩
            simpa using h
        · exact Or.inr ⟨seg, List.mem_cons_of_mem s hseg, h1, h2⟩
      by_cases hc : current = []
      · rw [show buildParts max_length (s :: rest) current =
            buildParts max_length rest (s ++ ['.']) by
          simp [buildParts, hlen, hc]] at hm
        rcases hrec chunk hm with h | ⟨seg, hseg, h1, h2⟩
        · exact Or.inl h
        · exact Or.inr (Or.inr ⟨seg, hseg, h1, h2⟩)
      · rw [show buildParts max_length (s :: rest) current =
            strip current :: buildParts max_length rest (s ++ ['.']) by
          simp [buildParts, hlen, hc]] at hm
        rcases List.mem_cons.mp hm with h | h
        · exact Or.inr (Or.inl (h ▸ strip_length_le current))
        · rcases hrec chunk h with h' | ⟨seg, hseg, h1, h2⟩
          · exact Or.inl h'
          · exact Or.inr (Or.inr ⟨seg, hseg, h1, h2⟩)

/-- C3 (amended): every chunk of `split_text text M` has length at most
`M + 1` (the re-appended period is not counted by the length check), except
when a single sentence-like segment alone exceeds `M`, in which case that
chunk's length is at most that segment's length plus one (the appended
period; the sentence itself is never truncated). -/
theorem c3_chunk_bound_amended (text : Chars) (max_length : Nat) (chunk : Chars)
    (hm : chunk ∈ split_text text max_length) :
    chunk.length ≤ max_length + 1 ∨
      ∃ seg ∈ splitAny isDelim text, max_length < seg.length ∧
        chunk.length ≤ seg.length + 1 := by
  by_cases hlen : text.length ≤ max_length
  · rw [show split_text text max_length = [text] by simp [split_text, hlen]] at hm
    rw [List.mem_singleton] at hm
    exact Or.inl (hm ▸ le_trans hlen (Nat.le_succ _))
  · rw [show split_text text max_length =
        buildParts max_length (splitAny isDelim text) [] by
      simp [split_text, hlen]] at hm
    rcases buildParts_length_bound max_length (splitAny isDelim text) [] chunk hm with
      h | h | ⟨seg, hseg, h1, h2⟩
    · exact Or.inl h
    · exact Or.inl (le_trans h (by simp))
    · exact Or.inr ⟨seg, hseg, h1, h2⟩

/-- Witness for the amended C3 at a concrete input. -/
theorem c3_chunk_bound_amended_witness :
    "ab.".toList ∈ split_text "ab.cd".toList 2 ∧
      ("ab.".toList.length ≤ 2 + 1 ∨
        ∃ seg ∈ splitAny isDelim "ab.cd".toList, 2 < seg.length ∧
          "ab.".toList.length ≤ seg.length + 1) :=
  ⟨by decide, c3_chunk_bound_amended _ _ _ (by decide)⟩

/-- C3 as stated is false: on `"ab.cd"` with maximum 2 every sentence-like
segment has length 2 ≤ M, yet the chunk `"ab."` has length 3 > M; and on
`"aaab"` (a single oversized sentence) the produced chunk is strictly longer
than the sentence itself. -/
theorem c3_bound_cex :
    (∀ seg ∈ splitAny isDelim "ab.cd".toList, seg.length ≤ 2) ∧
      (∃ chunk ∈ split_text "ab.cd".toList 2, 2 < chunk.length) ∧
      (∃ chunk ∈ split_text "aaab".toList 2,
        ∀ seg ∈ splitAny isDelim "aaab".toList, seg.length < chunk.length) := by
  refine ⟨by decide, ⟨"ab.".toList, by decide, by decide⟩,
    ⟨"aaab.".toList, by decide, by decide⟩⟩

/-! ## C7: behaviour on short inputs -/

/-- C7 (amended): an input whose length is at or under the maximum — the
empty string included — is returned as the single chunk `[text]`, with no
trimming applied. -/
theorem c7_short_input_amended (text : Chars) (max_length : Nat)
    (h : text.length ≤ max_length) : split_text text max_length = [text] := by
  simp [split_text, h]

/-- Witness for the amended C7 at concrete inputs. -/
theorem c7_short_input_amended_witness :
    (" a ".toList.length ≤ 1000) ∧ split_text " a ".toList 1000 = [" a ".toList] :=
  ⟨by decide, c7_short_input_amended _ _ (by decide)⟩

/-- C7 as stated is false: the empty input yields `[""]`, not an empty
sequence of chunks, and a short input is returned untrimmed, not trimmed. -/
theorem c7_short_input_cex :
    split_text ([] : Chars) 1000 ≠ [] ∧
      split_text " a ".toList 1000 ≠ [strip " a ".toList] := by
  refine ⟨by decide, by decide⟩

/-! ## C9: filter construction -/

theorem mustConds_build_filter (sec al ing : Option Chars) :
    mustConds (build_filter sec al ing) =
      (if truthy sec then
        [⟨"section".toList, QMatch.value (sec.getD [])⟩] else []) ++
      (if truthy al then
        [⟨"aliases".toList, QMatch.anyOf [al.getD []]⟩] else []) ++
      (if truthy ing then
        [⟨"ingredients".toList, QMatch.anyOf [ing.getD []]⟩] else []) := by
  unfold build_filter mustConds
  by_cases h1 : truthy sec <;> by_cases h2 : truthy al <;>
    by_cases h3 : truthy ing <;> simp [h1, h2, h3]

/-- C9 (amended): `build_filter` yields a conjunctive filter whose `must`
list holds exactly one equality condition on `section` when that argument is
present and non-empty, one set-membership condition on `aliases`
(resp. `ingredients`) when that argument is present and non-empty, and
nothing for an absent *or empty-string* argument (Python truthiness); when
all three are absent or empty the result is no filter at all. -/
theorem c9_build_filter_amended (sec al ing : Option Chars) :
    (∀ c : FieldCondition, c ∈ mustConds (build_filter sec al ing) ↔
      (truthy sec = true ∧ c = ⟨"section".toList, QMatch.value (sec.getD [])⟩) ∨
      (truthy al = true ∧ c = ⟨"aliases".toList, QMatch.anyOf [al.getD []]⟩) ∨
      (truthy ing = true ∧
        c = ⟨"ingredients".toList, QMatch.anyOf [ing.getD []]⟩)) ∧
    (build_filter sec al ing = none ↔
      truthy sec = false ∧ truthy al = false ∧ truthy ing = false) := by
  constructor
  · intro c
    rw [mustConds_build_filter]
    by_cases h1 : truthy sec <;> by_cases h2 : truthy al <;>
      by_cases h3 : truthy ing <;> simp [h1, h2, h3]
  · unfold build_filter
    by_cases h1 : truthy sec <;> by_cases h2 : truthy al <;>
      by_cases h3 : truthy ing <;> simp [h1, h2, h3]

/-- C9 as stated is false at a present-but-empty section argument: Python
`if section:` treats `""` as absent, so no equality condition is produced
and no filter at all is built. -/
theorem c9_build_filter_cex :
    build_filter (some []) none none = none ∧
      (⟨"section".toList, QMatch.value []⟩ : FieldCondition) ∉
        mustConds (build_filter (some []) none none) := by
  exact ⟨rfl, by simp [build_filter, mustConds, truthy]⟩

/-! ## C4 and C10: search endpoint -/

/-- C4 (amended): the handler returns at most `max(k, 0)` results for every
request; non-positive `k` is not rejected (see `c4_validation_cex`). -/
theorem c4_result_bound_amended (ranked : List ScoredPoint)
    (req : SearchRequest) :
    (search_medications ranked req).results.length ≤ req.k.toNat := by
  simp only [search_medications, qdrantSearch, List.length_map]
  simp [List.length_take]

/-- C4 as stated is false: a request with `k = 0` passes pydantic validation
(`k` is an unconstrained `int`), no `ValidationError` is raised, and the
handler proceeds to produce an ordinary empty response. -/
theorem c4_validation_cex :
    validateSearchRequest ⟨some "tylenol".toList, none, none, none, some 0⟩ =
      Except.ok ⟨"tylenol".toList, none, none, none, 0⟩ ∧
      search_medications [] ⟨"tylenol".toList, none, none, none, 0⟩ =
        ⟨[], 0⟩ :=
  ⟨rfl, rfl⟩

/-- C10: the `total` field of every search response equals the number of
entries in its `results` list. -/
theorem c10_total_eq_len (ranked : List ScoredPoint) (req : SearchRequest) :
    (search_medications ranked req).total =
      (search_medications ranked req).results.length := rfl

/-! ## C5: alias enumeration -/

theorem mem_alias_foldl (page : List QPayload) :
    ∀ (acc : Finset Chars) (a : Chars),
      a ∈ page.foldl (fun b p => b ∪ p.aliases.toFinset) acc ↔
        a ∈ acc ∨ ∃ p ∈ page, a ∈ p.aliases := by
  induction page with
  | nil => simp
  | cons q rest ih =>
    intro acc a
    rw [List.foldl_cons, ih]
    simp [Finset.mem_union, List.mem_toFinset, or_assoc]

theorem collectAliases_mem (corpus : List QPayload) (limit : Nat)
    (hl : 0 < limit) :
    ∀ (offset : Nat) (acc : Finset Chars) (a : Chars),
      a ∈ collectAliases corpus limit offset acc ↔
        a ∈ acc ∨ ∃ p ∈ corpus.drop offset, a ∈ p.aliases := by
  intro offset acc a
  induction offset, acc using collectAliases.induct corpus limit with
  | case1 offset acc hempty =>
    rw [collectAliases, dif_pos hempty]
    have hnil : (corpus.drop offset).take limit = [] := List.isEmpty_iff.mp hempty
    rcases List.take_eq_nil_iff.mp hnil with h | h
    · omega
    · simp [h]
  | case2 offset acc hempty hshort =>
    rw [collectAliases, dif_neg hempty, dif_pos hshort]
    have hfull : (corpus.drop offset).length < limit := by
      have h2 := List.length_take limit (corpus.drop offset)
      have h3 : (List.take limit (corpus.drop offset)).length < limit := hshort
      rw [h2] at h3
      omega
    have hpage : List.take limit (corpus.drop offset) = corpus.drop offset :=
      List.take_of_length_le (le_of_lt hfull)
    rw [mem_alias_foldl, hpage]
  | case3 offset acc hempty hshort ih =>
    rw [collectAliases, dif_neg hempty, dif_neg hshort]
    rw [ih, mem_alias_foldl]
    have hsplit : corpus.drop offset =
        List.take limit (corpus.drop offset) ++ corpus.drop (offset + limit) := by
      rw [show corpus.drop (offset + limit) = (corpus.drop offset).drop limit by
        rw [List.drop_drop]]
      exact (List.take_append_drop limit (corpus.drop offset)).symm
    constructor
    · rintro ((h | h) | h)
      · exact Or.inl h
      · obtain ⟨p, hp, hpa⟩ := h
        refine Or.inr ⟨p, ?_, hpa⟩
        rw [hsplit]
        exact List.mem_append_left _ hp
      · obtain ⟨p, hp, hpa⟩ := h
        refine Or.inr ⟨p, ?_, hpa⟩
        rw [hsplit]
        exact List.mem_append_right _ hp
    · rintro (h | h)
      · exact Or.inl (Or.inl h)
      · obtain ⟨p, hp, hpa⟩ := h
        rw [hsplit] at hp
        rcases List.mem_append.mp hp with h' | h'
        · exact Or.inl (Or.inr ⟨p, h', hpa⟩)
        · exact Or.inr ⟨p, h', hpa⟩

/-- C5: the alias enumeration paginates the whole collection 100 points at a
time until the index yields a short or empty page, and returns exactly the
alias strings occurring in any indexed payload, without duplicates, sorted
ascending in the lexicographic string order. -/
theorem c5_alias_enumeration (corpus : List QPayload) :
    (get_aliases corpus).Sorted (· ≤ ·) ∧ (get_aliases corpus).Nodup ∧
      ∀ a : Chars, a ∈ get_aliases corpus ↔ ∃ p ∈ corpus, a ∈ p.aliases := by
  refine ⟨Finset.sort_sorted _ _, Finset.sort_nodup _ _, fun a => ?_⟩
  unfold get_aliases
  rw [Finset.mem_sort, collectAliases_mem corpus 100 (by omega) 0 ∅ a]
  simp

/-! ## Lemmas: store primitives -/

theorem upsertA_holds {κ ν : Type} [DecidableEq κ] (t : List (κ × ν)) (k : κ)
    (v : ν) :
    (k, v) ∈ upsertA t k v ∧ ∀ p ∈ upsertA t k v, p.1 = k → p = (k, v) := by
  unfold upsertA
  by_cases h : t.any (fun p => p.1 = k)
  · rw [if_pos h]
    obtain ⟨q, hq, hqk⟩ := List.any_eq_true.mp h
    have hqk' : q.1 = k := by simpa using hqk
    constructor
    · exact List.mem_map.mpr ⟨q, hq, by simp [hqk']⟩
    · intro p hp hpk
      obtain ⟨q', hq', hfq⟩ := List.mem_map.mp hp
      by_cases hq'k : q'.1 = k
      · rw [← hfq]; simp [hq'k]
      · rw [← hfq] at hpk
        simp [hq'k] at hpk
  · rw [if_neg h]
    constructor
    · exact List.mem_append_right _ (List.mem_singleton.mpr rfl)
    · intro p hp hpk
      rcases List.mem_append.mp hp with h' | h'
      · exact absurd (List.any_eq_true.mpr ⟨p, h', by simp [hpk]⟩) h
      · simpa using h'

theorem upsertA_holds_other {κ ν : Type} [DecidableEq κ] {t : List (κ × ν)}
    {k : κ} {v : ν} (k' : κ) (v' : ν) (hne : k' ≠ k)
    (h : (k, v) ∈ t ∧ ∀ p ∈ t, p.1 = k → p = (k, v)) :
    (k, v) ∈ upsertA t k' v' ∧ ∀ p ∈ upsertA t k' v', p.1 = k → p = (k, v) := by
  obtain ⟨hmem, hall⟩ := h
  unfold upsertA
  by_cases hc : t.any (fun p => p.1 = k')
  · rw [if_pos hc]
    constructor
    · have hkk' : ¬k = k' := fun hh => hne hh.symm
      exact List.mem_map.mpr ⟨(k, v), hmem, by simp [hkk']⟩
    · intro p hp hpk
      obtain ⟨q, hq, hfq⟩ := List.mem_map.mp hp
      by_cases hqk : q.1 = k'
      · rw [← hfq] at hpk
        simp [hqk] at hpk
        exact absurd hpk hne
      · rw [← hfq] at hpk ⊢
        simp only [hqk, if_false] at hpk ⊢
        exact hall q hq hpk
  · rw [if_neg hc]
    constructor
    · exact List.mem_append_left _ hmem
    · intro p hp hpk
      rcases List.mem_append.mp hp with h' | h'
      · exact hall p h' hpk
      · have hpv : p = (k', v') := by simpa using h'
        rw [hpv] at hpk
        exact absurd hpk hne

theorem upsertA_eq_of_holds {κ ν : Type} [DecidableEq κ] {t : List (κ × ν)}
    {k : κ} {v : ν}
    (h : (k, v) ∈ t ∧ ∀ p ∈ t, p.1 = k → p = (k, v)) : upsertA t k v = t := by
  obtain ⟨hmem, hall⟩ := h
  unfold upsertA
  rw [if_pos (List.any_eq_true.mpr ⟨(k, v), hmem, by simp⟩)]
  conv_rhs => rw [← List.map_id t]
  apply List.map_congr_left
  intro p hp
  by_cases hpk : p.1 = k
  · simp only [hpk, if_pos, id_eq]
    exact (hall p hp hpk).symm
  · simp [hpk]

theorem upsertA_idem {κ ν : Type} [DecidableEq κ] (t : List (κ × ν)) (k : κ)
    (v : ν) : upsertA (upsertA t k v) k v = upsertA t k v :=
  upsertA_eq_of_holds (upsertA_holds t k v)

theorem upsertA_keys_nodup {κ ν : Type} [DecidableEq κ] {t : List (κ × ν)}
    (k : κ) (v : ν) (h : (t.map Prod.fst).Nodup) :
    ((upsertA t k v).map Prod.fst).Nodup := by
  unfold upsertA
  by_cases hc : t.any (fun p => p.1 = k)
  · rw [if_pos hc]
    have hkeys : (t.map (fun p => if p.1 = k then (k, v) else p)).map Prod.fst =
        t.map Prod.fst := by
      rw [List.map_map]
      apply List.map_congr_left
      intro p _
      by_cases hpk : p.1 = k
      · simp [hpk]
      · simp [hpk]
    rw [hkeys]
    exact h
  · rw [if_neg hc]
    rw [List.map_append]
    rw [List.nodup_append]
    refine ⟨h, by simp, ?_⟩
    intro a ha hb
    have hk : a = k := by simpa using hb
    subst hk
    obtain ⟨p, hp, hpk⟩ := List.mem_map.mp ha
    exact absurd (List.any_eq_true.mpr ⟨p, hp, by simp [hpk]⟩) hc

theorem upsertA_mem_keys {κ ν : Type} [DecidableEq κ] (t : List (κ × ν))
    (k : κ) (v : ν) : k ∈ (upsertA t k v).map Prod.fst :=
  List.mem_map.mpr ⟨(k, v), (upsertA_holds t k v).1, rfl⟩

theorem upsertList_holds_other {κ ν : Type} [DecidableEq κ]
    (kvs : List (κ × ν)) :
    ∀ (t : List (κ × ν)) (k : κ) (v : ν), (∀ kv ∈ kvs, kv.1 ≠ k) →
      ((k, v) ∈ t ∧ ∀ p ∈ t, p.1 = k → p = (k, v)) →
      ((k, v) ∈ upsertList t kvs ∧
        ∀ p ∈ upsertList t kvs, p.1 = k → p = (k, v)) := by
  induction kvs with
  | nil => intro t k v _ h; exact h
  | cons a rest ih =>
    intro t k v hk h
    rw [show upsertList t (a :: rest) = upsertList (upsertA t a.1 a.2) rest from rfl]
    exact ih _ k v (fun kv hkv => hk kv (List.mem_cons_of_mem a hkv))
      (upsertA_holds_other a.1 a.2 (hk a (List.mem_cons_self a rest)) h)

theorem upsertList_holds_self {κ ν : Type} [DecidableEq κ]
    (kvs : List (κ × ν)) :
    ∀ t : List (κ × ν), (kvs.map Prod.fst).Nodup → ∀ kv ∈ kvs,
      ((kv.1, kv.2) ∈ upsertList t kvs ∧
        ∀ p ∈ upsertList t kvs, p.1 = kv.1 → p = (kv.1, kv.2)) := by
  induction kvs with
  | nil => intro t _ kv hkv; simp at hkv
  | cons a rest ih =>
    intro t hnodup kv hkv
    rw [List.map_cons, List.nodup_cons] at hnodup
    obtain ⟨hnotin, hrest⟩ := hnodup
    rw [show upsertList t (a :: rest) = upsertList (upsertA t a.1 a.2) rest from rfl]
    rcases List.mem_cons.mp hkv with h | h
    · subst h
      refine upsertList_holds_other rest _ kv.1 kv.2 ?_ (upsertA_holds t kv.1 kv.2)
      intro kv' hkv' heq
      exact hnotin (heq ▸ List.mem_map.mpr ⟨kv', hkv', rfl⟩)
    · exact ih _ hrest kv h

theorem upsertList_eq_of_all_holds {κ ν : Type} [DecidableEq κ]
    (kvs : List (κ × ν)) :
    ∀ t : List (κ × ν),
      (∀ kv ∈ kvs, (kv.1, kv.2) ∈ t ∧ ∀ p ∈ t, p.1 = kv.1 → p = (kv.1, kv.2)) →
      upsertList t kvs = t := by
  induction kvs with
  | nil => intro t _; rfl
  | cons a rest ih =>
    intro t h
    rw [show upsertList t (a :: rest) = upsertList (upsertA t a.1 a.2) rest from rfl]
    have ha := h a (List.mem_cons_self a rest)
    have heq : upsertA t a.1 a.2 = t := upsertA_eq_of_holds ha
    rw [heq]
    exact ih t (fun kv hkv => h kv (List.mem_cons_of_mem a hkv))

theorem upsertList_idem {κ ν : Type} [DecidableEq κ] (t : List (κ × ν))
    (kvs : List (κ × ν)) (hnodup : (kvs.map Prod.fst).Nodup) :
    upsertList (upsertList t kvs) kvs = upsertList t kvs :=
  upsertList_eq_of_all_holds kvs _
    (fun kv hkv => upsertList_holds_self kvs t hnodup kv hkv)

theorem upsertList_keys_nodup {κ ν : Type} [DecidableEq κ]
    (kvs : List (κ × ν)) :
    ∀ t : List (κ × ν), (t.map Prod.fst).Nodup →
      ((upsertList t kvs).map Prod.fst).Nodup := by
  induction kvs with
  | nil => intro t h; exact h
  | cons a rest ih =>
    intro t h
    exact ih _ (upsertA_keys_nodup a.1 a.2 h)

theorem insertIgnore_mem_self {α : Type} [DecidableEq α] (t : List α) (x : α) :
    x ∈ insertIgnore t x := by
  unfold insertIgnore
  by_cases h : x ∈ t
  · rw [if_pos h]; exact h
  · rw [if_neg h]; exact List.mem_append_right _ (List.mem_singleton.mpr rfl)

theorem insertIgnore_eq_of_mem {α : Type} [DecidableEq α] {t : List α} {x : α}
    (h : x ∈ t) : insertIgnore t x = t := by
  unfold insertIgnore
  rw [if_pos h]

theorem insertIgnore_mem_mono {α : Type} [DecidableEq α] {t : List α} {y : α}
    (x : α) (h : y ∈ t) : y ∈ insertIgnore t x := by
  unfold insertIgnore
  by_cases hx : x ∈ t
  · rw [if_pos hx]; exact h
  · rw [if_neg hx]; exact List.mem_append_left _ h

theorem insertIgnore_idem {α : Type} [DecidableEq α] (t : List α) (x : α) :
    insertIgnore (insertIgnore t x) x = insertIgnore t x :=
  insertIgnore_eq_of_mem (insertIgnore_mem_self t x)

theorem insertIgnore_nodup {α : Type} [DecidableEq α] {t : List α} (x : α)
    (h : t.Nodup) : (insertIgnore t x).Nodup := by
  unfold insertIgnore
  by_cases hx : x ∈ t
  · rw [if_pos hx]; exact h
  · rw [if_neg hx]
    rw [List.nodup_append]
    refine ⟨h, by simp, ?_⟩
    intro a ha hb
    have hax : a = x := by simpa using hb
    exact hx (hax ▸ ha)

theorem foldInsert_mem_mono {α : Type} [DecidableEq α] (xs : List α) :
    ∀ (t : List α) (y : α), y ∈ t → y ∈ foldInsert t xs := by
  induction xs with
  | nil => intro t y h; exact h
  | cons a rest ih =>
    intro t y h
    exact ih _ y (insertIgnore_mem_mono a h)

theorem foldInsert_mem_self {α : Type} [DecidableEq α] (xs : List α) :
    ∀ t : List α, ∀ x ∈ xs, x ∈ foldInsert t xs := by
  induction xs with
  | nil => intro t x h; simp at h
  | cons a rest ih =>
    intro t x hx
    rcases List.mem_cons.mp hx with h | h
    · subst h
      exact foldInsert_mem_mono rest _ x (insertIgnore_mem_self t x)
    · exact ih _ x h

theorem foldInsert_eq_of_all_mem {α : Type} [DecidableEq α] (xs : List α) :
    ∀ t : List α, (∀ x ∈ xs, x ∈ t) → foldInsert t xs = t := by
  induction xs with
  | nil => intro t _; rfl
  | cons a rest ih =>
    intro t h
    rw [show foldInsert t (a :: rest) = foldInsert (insertIgnore t a) rest from rfl]
    rw [insertIgnore_eq_of_mem (h a (List.mem_cons_self a rest))]
    exact ih t (fun x hx => h x (List.mem_cons_of_mem a hx))

theorem foldInsert_idem {α : Type} [DecidableEq α] (t : List α) (xs : List α) :
    foldInsert (foldInsert t xs) xs = foldInsert t xs :=
  foldInsert_eq_of_all_mem xs _ (fun x hx => foldInsert_mem_self xs t x hx)

theorem foldInsert_nodup {α : Type} [DecidableEq α] (xs : List α) :
    ∀ t : List α, t.Nodup → (foldInsert t xs).Nodup := by
  induction xs with
  | nil => intro t h; exact h
  | cons a rest ih =>
    intro t h
    exact ih _ (insertIgnore_nodup a h)

/-! ## Lemmas: point ids -/

theorem natCharsAux_digits :
    ∀ (fuel n : Nat), ∀ c ∈ natCharsAux fuel n, c.isDigit = true := by
  have hd : ∀ d, d < 10 → (Char.ofNat (48 + d)).isDigit = true := by decide
  intro fuel
  induction fuel with
  | zero => intro n c hc; simp [natCharsAux] at hc
  | succ f ih =>
    intro n c hc
    unfold natCharsAux at hc
    by_cases h : n < 10
    · rw [if_pos h] at hc
      have hcn : c = Char.ofNat (48 + n) := by simpa using hc
      exact hcn ▸ hd n h
    · rw [if_neg h] at hc
      rcases List.mem_append.mp hc with h' | h'
      · exact ih _ c h'
      · have hcn : c = Char.ofNat (48 + n % 10) := by simpa using h'
        exact hcn ▸ hd _ (Nat.mod_lt _ (by omega))

theorem digitsVal_append_digit (l : Chars) (c : Char) :
    digitsVal (l ++ [c]) = digitsVal l * 10 + (c.toNat - 48) := by
  unfold digitsVal
  rw [List.foldl_append]
  rfl

theorem digitsVal_natCharsAux :
    ∀ (fuel n : Nat), n < 10 ^ fuel → digitsVal (natCharsAux fuel n) = n := by
  have ht : ∀ d, d < 10 → (Char.ofNat (48 + d)).toNat = 48 + d := by decide
  intro fuel
  induction fuel with
  | zero =>
    intro n hn
    have : n = 0 := by simpa using hn
    subst this
    rfl
  | succ f ih =>
    intro n hn
    unfold natCharsAux
    by_cases h : n < 10
    · rw [if_pos h]
      show digitsVal ([] ++ [Char.ofNat (48 + n)]) = n
      rw [digitsVal_append_digit, ht n h]
      simp [digitsVal]
    · rw [if_neg h]
      rw [digitsVal_append_digit, ht _ (Nat.mod_lt _ (by omega))]
      have hdiv : n / 10 < 10 ^ f := by
        apply Nat.div_lt_of_lt_mul
        rw [pow_succ] at hn
        omega
      rw [ih _ hdiv]
      omega

theorem natChars_injective {m n : Nat} (h : natChars m = natChars n) : m = n := by
  have hm : digitsVal (natChars m) = m :=
    digitsVal_natCharsAux (m + 1) m
      (lt_of_lt_of_le (Nat.lt_pow_self (by omega) m)
        (Nat.pow_le_pow_right (by omega) (Nat.le_succ m)))
  have hn : digitsVal (natChars n) = n :=
    digitsVal_natCharsAux (n + 1) n
      (lt_of_lt_of_le (Nat.lt_pow_self (by omega) n)
        (Nat.pow_le_pow_right (by omega) (Nat.le_succ n)))
  rw [← hm, ← hn, h]

theorem takeWhile_digits_append (d1 : Chars) (rest : Chars)
    (hd : ∀ c ∈ d1, c.isDigit = true) :
    (d1 ++ '_' :: rest).takeWhile Char.isDigit = d1 ∧
      (d1 ++ '_' :: rest).dropWhile Char.isDigit = '_' :: rest := by
  induction d1 with
  | nil =>
    constructor
    · simp [List.takeWhile_cons, show '_'.isDigit = false from by decide]
    · simp [List.dropWhile_cons, show '_'.isDigit = false from by decide]
  | cons c t ih =>
    obtain ⟨ih1, ih2⟩ := ih (fun x hx => hd x (List.mem_cons_of_mem c hx))
    have hc : c.isDigit = true := hd c (List.mem_cons_self c t)
    constructor
    · rw [List.cons_append, List.takeWhile_cons, hc]
      simp only [if_true]
      rw [ih1]
    · rw [List.cons_append, List.dropWhile_cons, hc]
      simp only [if_true]
      rw [ih2]

theorem pointId_inj {s sec1 sec2 : Chars} {i1 i2 : Nat}
    (h : pointId s sec1 i1 = pointId s sec2 i2) : sec1 = sec2 ∧ i1 = i2 := by
  unfold pointId at h
  have h0 := List.append_cancel_left h
  have h1 : sec1 ++ '_' :: natChars i1 = sec2 ++ '_' :: natChars i2 := by
    injection h0
  have h2 := congrArg List.reverse h1
  rw [List.reverse_append, List.reverse_append, List.reverse_cons,
    List.reverse_cons, List.append_assoc, List.append_assoc,
    List.singleton_append, List.singleton_append] at h2
  have hd1 : ∀ c ∈ (natChars i1).reverse, c.isDigit = true :=
    fun c hc => natCharsAux_digits _ _ c (List.mem_reverse.mp hc)
  have hd2 : ∀ c ∈ (natChars i2).reverse, c.isDigit = true :=
    fun c hc => natCharsAux_digits _ _ c (List.mem_reverse.mp hc)
  obtain ⟨ht1, hdr1⟩ := takeWhile_digits_append (natChars i1).reverse sec1.reverse hd1
  obtain ⟨ht2, hdr2⟩ := takeWhile_digits_append (natChars i2).reverse sec2.reverse hd2
  have heqd : (natChars i1).reverse = (natChars i2).reverse := by
    rw [← ht1, ← ht2, h2]
  have heqs : '_' :: sec1.reverse = '_' :: sec2.reverse := by
    rw [← hdr1, ← hdr2, h2]
  constructor
  · have : sec1.reverse = sec2.reverse := by
      injection heqs
    exact List.reverse_injective this
  · exact natChars_injective (List.reverse_injective heqd)

/-! ## Lemmas: the keys generated for one record are distinct -/

theorem nodup_flatMap_of_pairwise {α β : Type} (l : List α) (f : α → List β)
    (hinner : ∀ x ∈ l, (f x).Nodup)
    (hdisj : l.Pairwise (fun a b => ∀ y ∈ f a, y ∉ f b)) :
    (l.flatMap f).Nodup := by
  induction l with
  | nil => simp
  | cons a rest ih =>
    rw [List.flatMap_cons, List.nodup_append]
    rw [List.pairwise_cons] at hdisj
    refine ⟨hinner a (List.mem_cons_self a rest), ?_, ?_⟩
    · exact ih (fun x hx => hinner x (List.mem_cons_of_mem a hx)) hdisj.2
    · intro y hy hy'
      obtain ⟨b, hb, hyb⟩ := List.mem_flatMap.mp hy'
      exact hdisj.1 b hb y hy hyb

theorem sectionTexts_names_pairwise (r : Record) :
    (sectionTexts r).Pairwise (fun a b => a.1 ≠ b.1) := by
  have hnodup : ((sectionTexts r).map Prod.fst).Nodup := by
    show (List.map Prod.fst [_, _, _, _, _, _, _]).Nodup
    simp only [List.map_cons, List.map_nil]
    decide
  rw [List.Nodup, List.pairwise_map] at hnodup
  exact hnodup

theorem partTriples_pairs_nodup (r : Record) :
    ((partTriples r).map (fun p => (p.1, p.2.1))).Nodup := by
  unfold partTriples
  rw [List.map_flatMap]
  apply nodup_flatMap_of_pairwise
  · intro st _
    by_cases ht : truthy st.2
    · rw [if_pos ht, List.map_map]
      have hcomp :
          ((fun p : Chars × Nat × Chars => (p.1, p.2.1)) ∘
            (fun it : Nat × Chars => (st.1, it.1, it.2))) =
          ((fun i : Nat => (st.1, i)) ∘ Prod.fst) := by
        funext it
        rfl
      rw [hcomp, ← List.map_map, List.enum_map_fst]
      apply List.Nodup.map
      · intro i j hij
        simpa using hij
      · exact List.nodup_range _
    · rw [if_neg ht]
      simp
  · have hp := sectionTexts_names_pairwise r
    apply List.Pairwise.imp ?_ hp
    intro a b hne y hya hyb
    have hfst : ∀ (st : Chars × Option Chars) (z : Chars × Nat),
        z ∈ (List.map (fun p : Chars × Nat × Chars => (p.1, p.2.1))
          (if truthy st.2 then
            (split_text (st.2.getD [])).enum.map (fun it => (st.1, it.1, it.2))
          else [])) → z.1 = st.1 := by
      intro st z hz
      obtain ⟨p, hp', hpz⟩ := List.mem_map.mp hz
      by_cases ht : truthy st.2
      · rw [if_pos ht] at hp'
        obtain ⟨it, _, hip⟩ := List.mem_map.mp hp'
        rw [← hpz, ← hip]
      · rw [if_neg ht] at hp'
        simp at hp'
    have h1 := hfst a y hya
    have h2 := hfst b y hyb
    exact hne (h1.symm.trans h2)

theorem sectionKVs_keys_nodup (s : Chars) (r : Record) :
    ((sectionKVs s r).map Prod.fst).Nodup := by
  unfold sectionKVs
  rw [List.map_map]
  have hcomp :
      (Prod.fst ∘ (fun p : Chars × Nat × Chars => ((s, p.1, p.2.1), p.2.2))) =
      ((fun q : Chars × Nat => (s, q.1, q.2)) ∘ (fun p => (p.1, p.2.1))) := by
    funext p
    rfl
  rw [hcomp, ← List.map_map]
  apply List.Nodup.map
  · intro q q' hq
    have h1 : q.1 = q'.1 := congrArg (fun x : Chars × Chars × Nat => x.2.1) hq
    have h2 : q.2 = q'.2 := congrArg (fun x : Chars × Chars × Nat => x.2.2) hq
    exact Prod.ext h1 h2
  · exact partTriples_pairs_nodup r

theorem pointKVs_keys_nodup (embed : Chars → List Int)
    (aliasName s : Chars) (r : Record) :
    ((pointKVs embed aliasName s r).map Prod.fst).Nodup := by
  unfold pointKVs
  rw [List.map_map]
  have hcomp :
      (Prod.fst ∘ (fun p : Chars × Nat × Chars =>
        (pointId s p.1 p.2.1,
          (embed p.2.2,
            ({ item_seq := s, sectionName := p.1, part_idx := p.2.1,
               entp_name := r.entpName, item_name := r.itemName,
               aliases := [aliasName],
               ingredients := extract_ingredients (r.itemName.getD []),
               is_otc := true,
               update_de := "2024-12-31".toList } : QPayload))))) =
      ((fun q : Chars × Nat => pointId s q.1 q.2) ∘ (fun p => (p.1, p.2.1))) := by
    funext p
    rfl
  rw [hcomp, ← List.map_map]
  apply List.Nodup.map
  · intro q q' hq
    obtain ⟨hsec, hi⟩ := pointId_inj hq
    exact Prod.ext hsec hi
  · exact partTriples_pairs_nodup r

/-! ## Lemmas: the ingest of one record -/

theorem processItem_eq (embed : Chars → List Int) (σ : Stores)
    (aliasName s : Chars) (r : Record) (hseq : r.itemSeq = some s)
    (hs : s.isEmpty = false) :
    processItem embed σ aliasName r =
      { products := upsertA σ.products s (productRow r)
        product_aliases := insertIgnore σ.product_aliases (aliasName, s)
        product_ingredients := foldInsert σ.product_ingredients
          ((extract_ingredients (r.itemName.getD [])).map (fun i => (s, i)))
        product_sections := upsertList σ.product_sections (sectionKVs s r)
        points := upsertList σ.points (pointKVs embed aliasName s r) } := by
  unfold processItem
  rw [hseq]
  simp [hs]

theorem processItem_idem (embed : Chars → List Int) (σ : Stores)
    (aliasName : Chars) (r : Record) :
    processItem embed (processItem embed σ aliasName r) aliasName r =
      processItem embed σ aliasName r := by
  cases hseq : r.itemSeq with
  | none => unfold processItem; rw [hseq]
  | some s =>
    by_cases hs : s.isEmpty
    · unfold processItem
      rw [hseq]
      simp [hs]
    · have hs' : s.isEmpty = false := by simpa using hs
      rw [processItem_eq embed σ aliasName s r hseq hs']
      rw [processItem_eq embed _ aliasName s r hseq hs']
      simp only [Stores.mk.injEq]
      refine ⟨upsertA_idem _ _ _, insertIgnore_idem _ _, foldInsert_idem _ _,
        upsertList_idem _ _ (sectionKVs_keys_nodup s r),
        upsertList_idem _ _ (pointKVs_keys_nodup embed aliasName s r)⟩

theorem processItem_nodup (embed : Chars → List Int) (σ : Stores)
    (aliasName : Chars) (r : Record) (h : NoDupKeys σ) :
    NoDupKeys (processItem embed σ aliasName r) := by
  obtain ⟨h1, h2, h3, h4, h5⟩ := h
  cases hseq : r.itemSeq with
  | none =>
    unfold processItem
    rw [hseq]
    exact ⟨h1, h2, h3, h4, h5⟩
  | some s =>
    by_cases hs : s.isEmpty
    · unfold processItem
      rw [hseq]
      simp only [hs, if_true]
      exact ⟨h1, h2, h3, h4, h5⟩
    · have hs' : s.isEmpty = false := by simpa using hs
      rw [processItem_eq embed σ aliasName s r hseq hs']
      exact ⟨upsertA_keys_nodup _ _ h1, insertIgnore_nodup _ h2,
        foldInsert_nodup _ _ h3, upsertList_keys_nodup _ _ h4,
        upsertList_keys_nodup _ _ h5⟩

theorem countP_eq_one_of_mem {α : Type} [DecidableEq α] {a : α} {l : List α}
    (hnd : l.Nodup) (h : a ∈ l) : l.countP (fun x => decide (x = a)) = 1 := by
  induction l with
  | nil => simp at h
  | cons b t ih =>
    rw [List.nodup_cons] at hnd
    rw [List.countP_cons]
    rcases List.mem_cons.mp h with heq | hmem
    · subst heq
      have hz : t.countP (fun x => decide (x = a)) = 0 := by
        rw [List.countP_eq_zero]
        intro x hx hxa
        exact hnd.1 ((by simpa using hxa : x = a) ▸ hx)
      simp [hz]
    · have hne : ¬b = a := fun hba => hnd.1 (hba ▸ hmem)
      rw [ih hnd.2 hmem]
      simp [hne]

/-- C6: re-ingesting the same source record under the same alias leaves both
stores exactly as after one ingest (so all row/point counts and point ids
coincide across re-ingests); key uniqueness of every store is preserved; and
after one ingest there is exactly one product row for the item, one alias
row for the `(alias, item)` pair, one ingredient row per extracted
ingredient, one chunk row per `(item, section, part_idx)` key, and one
embedding point per generated point id. -/
theorem c6_idempotent_reingest (embed : Chars → List Int) (σ : Stores)
    (aliasName s : Chars) (r : Record) (hseq : r.itemSeq = some s)
    (hs : s.isEmpty = false) (hnd : NoDupKeys σ) :
    processItem embed (processItem embed σ aliasName r) aliasName r =
        processItem embed σ aliasName r ∧
      NoDupKeys (processItem embed σ aliasName r) ∧
      ((processItem embed σ aliasName r).products.map Prod.fst).countP
        (fun x => decide (x = s)) = 1 ∧
      (processItem embed σ aliasName r).product_aliases.countP
        (fun x => decide (x = (aliasName, s))) = 1 ∧
      (∀ i ∈ extract_ingredients (r.itemName.getD []),
        (processItem embed σ aliasName r).product_ingredients.countP
          (fun x => decide (x = (s, i))) = 1) ∧
      (∀ kv ∈ sectionKVs s r,
        ((processItem embed σ aliasName r).product_sections.map Prod.fst).countP
          (fun x => decide (x = kv.1)) = 1) ∧
      (∀ kv ∈ pointKVs embed aliasName s r,
        ((processItem embed σ aliasName r).points.map Prod.fst).countP
          (fun x => decide (x = kv.1)) = 1) := by
  obtain ⟨h1, h2, h3, h4, h5⟩ := hnd
  refine ⟨processItem_idem embed σ aliasName r,
    processItem_nodup embed σ aliasName r ⟨h1, h2, h3, h4, h5⟩, ?_, ?_, ?_, ?_, ?_⟩
  · rw [processItem_eq embed σ aliasName s r hseq hs]
    exact countP_eq_one_of_mem (upsertA_keys_nodup _ _ h1)
      (upsertA_mem_keys _ _ _)
  · rw [processItem_eq embed σ aliasName s r hseq hs]
    exact countP_eq_one_of_mem (insertIgnore_nodup _ h2)
      (insertIgnore_mem_self _ _)
  · intro i hi
    rw [processItem_eq embed σ aliasName s r hseq hs]
    exact countP_eq_one_of_mem (foldInsert_nodup _ _ h3)
      (foldInsert_mem_self _ _ _ (List.mem_map.mpr ⟨i, hi, rfl⟩))
  · intro kv hkv
    rw [processItem_eq embed σ aliasName s r hseq hs]
    have hm := (upsertList_holds_self _ σ.product_sections
      (sectionKVs_keys_nodup s r) kv hkv).1
    exact countP_eq_one_of_mem (upsertList_keys_nodup _ _ h4)
      (List.mem_map.mpr ⟨(kv.1, kv.2), hm, rfl⟩)
  · intro kv hkv
    rw [processItem_eq embed σ aliasName s r hseq hs]
    have hm := (upsertList_holds_self _ σ.points
      (pointKVs_keys_nodup embed aliasName s r) kv hkv).1
    exact countP_eq_one_of_mem (upsertList_keys_nodup _ _ h5)
      (List.mem_map.mpr ⟨(kv.1, kv.2), hm, rfl⟩)

/-- Witness for C6 at a concrete record and the empty stores. -/
theorem c6_idempotent_reingest_witness :
    demoRecord.itemSeq = some "1".toList ∧ ("1".toList).isEmpty = false ∧
      NoDupKeys Stores.empty ∧
      processItem demoEmbed
          (processItem demoEmbed Stores.empty "A".toList demoRecord)
          "A".toList demoRecord =
        processItem demoEmbed Stores.empty "A".toList demoRecord :=
  ⟨by decide, by decide, by decide,
    (c6_idempotent_reingest demoEmbed Stores.empty "A".toList "1".toList
      demoRecord (by decide) (by decide) (by decide)).1⟩

/-- C1: the ingest stores only the *current* pass's alias in a point's
payload.  Ingesting item "1" under alias "A" and then re-ingesting it under
alias "B" leaves the single embedding point's payload aliases as `["B"]` —
the earlier alias "A" is overwritten, not accumulated — while the relational
store has accumulated both alias rows. -/
theorem c1_payload_alias_overwritten :
    ((processItem demoEmbed
        (processItem demoEmbed Stores.empty "A".toList demoRecord)
        "B".toList demoRecord).points.map (fun p => p.2.2.aliases)) =
      [["B".toList]] ∧
      (processItem demoEmbed
          (processItem demoEmbed Stores.empty "A".toList demoRecord)
          "B".toList demoRecord).product_aliases =
        [("A".toList, "1".toList), ("B".toList, "1".toList)] := by
  exact ⟨by decide, by decide⟩
